import Mathlib

/-!
Range partition assignment (`assign.go`).

A shallow embedding of `RangeAssignmentStrategy.assignPartitions` and
`RangeAssignmentStrategy.Assign`, together with the properties of the
per-topic partition counts and of the value `Assign` returns.

Conventions of the embedding:

* A Go `int` is an `Int`. Division is Go's truncating division (`Int.tdiv`).
  In `assignPartitions` the quotient `partitionCount / (i + 1)` lies between
  `0` and `partitionCount`, so the subtraction that follows stays between `0`
  and `partitionCount` as well: no value computed by the loop leaves the range
  of the two arguments, and 64-bit wrap-around cannot occur.
* A slice is a `List`; a slice length and a slice index are `Nat`.  An index
  outside the slice is the Go run-time panic, modelled by `Fault.indexOutOfRange`.
* Pointers to records are the records themselves (no nil entries, no aliasing);
  what the caller can observe of its arguments after the call is returned next
  to the result.
-/

set_option autoImplicit false

namespace Healer

/-! ## Data model -/

/-- One partition of a topic, as declared in the comment block of `assign.go`
(`PartitionId` is a `uint32`: a natural number below `2 ^ 32`). -/
structure PartitionMetadataInfo where
  PartitionErrorCode : Int
  PartitionId : Nat
  Leader : Int
  Replicas : List Int
  Isr : List Int
deriving DecidableEq, Repr

/-- Metadata of one topic, as declared in the comment block of `assign.go`. -/
structure TopicMetadata where
  TopicErrorCode : Int
  TopicName : String
  PartitionMetadatas : List PartitionMetadataInfo
deriving DecidableEq, Repr

/-- One partition handed to one member (`Partition` is an `int32`). -/
structure PartitionAssignment where
  Topic : String
  Partition : Int
deriving DecidableEq, Repr

/-- One element of `GroupAssignment`: a member identifier and the bytes of its
serialized `MemberAssignment`. -/
structure GroupAssignmentEntry where
  MemberID : String
  MemberAssignment : List Nat
deriving DecidableEq, Repr

/-- The type `GroupAssignment []struct{MemberID string; MemberAssignment []byte}`. -/
abbrev GroupAssignment := List GroupAssignmentEntry

/-- Modelled from the spec: the declaration of `Member` is not part of the
sources at hand; the spec describes a member as a group participant carrying a
member identifier (a string). `Assign` only ever takes the length of the member
list. -/
structure Member where
  MemberID : String
deriving DecidableEq, Repr

/-- Run-time panics of the embedded code. -/
inductive Fault where
  | indexOutOfRange
  | divideByZero
deriving DecidableEq, Repr

/-! ## `assignPartitions` -/

/-- The loop of `assignPartitions`: `n` is `i + 1` for the next index `i` to be
written, so `assignLoop n` runs the iterations `i = n - 1, ..., 0`. Each
iteration stores `partitionCount / (i + 1)` in `rst[i]` and subtracts it from
`partitionCount`. The index `i` is below `len(rst) = memberCount`, so the
write is always in range. -/
def assignLoop : Nat → Int → List Int → List Int
  | 0, _, rst => rst
  | i + 1, partitionCount, rst =>
    let c := Int.tdiv partitionCount ((i : Int) + 1)
    assignLoop i (partitionCount - c) (rst.set i c)

/-- The function `assignPartitions(memberCount, partitionCount)`: a zeroed
slice of `memberCount` entries, filled from the highest index down. -/
def assignPartitions (memberCount : Nat) (partitionCount : Int) : List Int :=
  assignLoop memberCount partitionCount (List.replicate memberCount 0)

/-- The loop of `assignPartitions` with the run-time checks of its two
operations spelled out: the division `partitionCount / (i + 1)` panics on a
zero divisor, the write `rst[i] = ...` panics on an index outside `rst`. -/
def assignLoopChecked : Nat → Int → List Int → Except Fault (List Int)
  | 0, _, rst => .ok rst
  | i + 1, partitionCount, rst =>
    if (i : Int) + 1 = 0 then .error .divideByZero
    else if i < rst.length then
      let c := Int.tdiv partitionCount ((i : Int) + 1)
      assignLoopChecked i (partitionCount - c) (rst.set i c)
    else .error .indexOutOfRange

/-- The function `assignPartitions` with its run-time checks spelled out. -/
def assignPartitionsChecked (memberCount : Nat) (partitionCount : Int) :
    Except Fault (List Int) :=
  assignLoopChecked memberCount partitionCount (List.replicate memberCount 0)

/-! ## `Assign` -/

/-- The method `ByPartitionID.Less`, on the two elements it compares:
`a[i].PartitionId < a[j].PartitionId`. (`Len` and `Swap` are the length and
the exchange of two positions of the list.) -/
def ByPartitionID.Less (a b : PartitionMetadataInfo) : Prop :=
  a.PartitionId < b.PartitionId

instance ByPartitionID.Less_decidable : DecidableRel ByPartitionID.Less :=
  fun a b => inferInstanceAs (Decidable (a.PartitionId < b.PartitionId))

/-- The order `sort.Sort` establishes between an earlier element `a` and a
later element `b` of the slice: `b` is not `Less` than `a`. -/
def ByPartitionID.Ordered (a b : PartitionMetadataInfo) : Prop :=
  ¬ ByPartitionID.Less b a

instance ByPartitionID.Ordered_decidable : DecidableRel ByPartitionID.Ordered :=
  fun a b => inferInstanceAs (Decidable (¬ ByPartitionID.Less b a))

instance ByPartitionID.Ordered_total : IsTotal PartitionMetadataInfo ByPartitionID.Ordered :=
  ⟨fun a b => by
    simp only [ByPartitionID.Ordered, ByPartitionID.Less]
    omega⟩

instance ByPartitionID.Ordered_trans : IsTrans PartitionMetadataInfo ByPartitionID.Ordered :=
  ⟨fun a b c => by
    simp only [ByPartitionID.Ordered, ByPartitionID.Less]
    omega⟩

instance ByPartitionID.Less_antisymm : IsAntisymm PartitionMetadataInfo ByPartitionID.Less :=
  ⟨fun a b => by
    simp only [ByPartitionID.Less]
    omega⟩

/-- The call `sort.Sort(ByPartitionID(...))`. The standard library promises a
rearrangement of the slice in which no element is `Less` than an earlier one,
and no more (the sort is not stable); insertion sort is one such rearrangement.
When the partition ids are pairwise different there is only one. -/
def sortByPartitionID (a : List PartitionMetadataInfo) : List PartitionMetadataInfo :=
  a.insertionSort ByPartitionID.Ordered

/-- The conversion `int32(x)` of a `uint32` value. -/
def toInt32 (x : Nat) : Int :=
  if x % 2 ^ 32 < 2 ^ 31 then ((x % 2 ^ 32 : Nat) : Int)
  else ((x % 2 ^ 32 : Nat) : Int) - 2 ^ 32

/-- The local variables `idx` and `partitionAssignments` of `Assign`; a slot
of `partitionAssignments` is `none` while it still holds the nil pointer
`make` put there. -/
structure FillState where
  idx : Nat
  partitionAssignments : List (Option PartitionAssignment)
deriving DecidableEq, Repr

/-- The inner loop `for j := 0; j < partitions[i]; j++` with `n` iterations
left to run: each one reads `PartitionMetadatas[idx]`, writes
`partitionAssignments[idx]` and increments `idx`. Either index out of range
panics. -/
def fillLoop (topicMetadata : TopicMetadata) : Nat → FillState → Except Fault FillState
  | 0, st => .ok st
  | n + 1, st =>
    match topicMetadata.PartitionMetadatas[st.idx]? with
    | none => .error .indexOutOfRange
    | some pm =>
      if st.idx < st.partitionAssignments.length then
        fillLoop topicMetadata n
          { idx := st.idx + 1
            partitionAssignments := st.partitionAssignments.set st.idx
              (some { Topic := topicMetadata.TopicName, Partition := toInt32 pm.PartitionId }) }
      else .error .indexOutOfRange

/-- The loop `for i := 0; i < len(members); i++` with `n` iterations left to
run, the next one for member index `i`. The inner loop runs while
`j < partitions[i]`, that is `partitions[i]` times when that is positive and
not at all otherwise. -/
def memberLoop (topicMetadata : TopicMetadata) (partitions : List Int) :
    Nat → Nat → FillState → Except Fault FillState
  | 0, _, st => .ok st
  | n + 1, i, st =>
    match partitions[i]? with
    | none => .error .indexOutOfRange
    | some c =>
      match fillLoop topicMetadata c.toNat st with
      | .error e => .error e
      | .ok st1 => memberLoop topicMetadata partitions n (i + 1) st1

/-- The topic after `sort.Sort(ByPartitionID(topicMetadata.PartitionMetadatas))`:
the sort works in place on the slice the caller handed in. -/
def sortTopic (topicMetadata : TopicMetadata) : TopicMetadata :=
  { topicMetadata with
    PartitionMetadatas := sortByPartitionID topicMetadata.PartitionMetadatas }

/-- The body of the loop over `topicMetadatas`, for one topic: sort the
topic's partitions in place, compute the counts, fill `partitionAssignments`.
Returns the topic as the sort left it and the final `partitionAssignments`. -/
def assignTopic (memberCount : Nat) (topicMetadata : TopicMetadata) :
    Except Fault (TopicMetadata × List (Option PartitionAssignment)) :=
  let sorted : TopicMetadata := sortTopic topicMetadata
  let partitions := assignPartitions memberCount (sorted.PartitionMetadatas.length : Int)
  let partitionAssignments : List (Option PartitionAssignment) :=
    List.replicate sorted.PartitionMetadatas.length none
  match memberLoop sorted partitions memberCount 0
      { idx := 0, partitionAssignments := partitionAssignments } with
  | .error e => .error e
  | .ok st => .ok (sorted, st.partitionAssignments)

/-- The loop `for _, topicMetadata := range topicMetadatas`: every topic is
processed in turn; `partitionAssignments` is dropped at the end of each
iteration, the sorted topic stays behind in the caller's slice. -/
def assignTopics (memberCount : Nat) : List TopicMetadata → Except Fault (List TopicMetadata)
  | [] => .ok []
  | topicMetadata :: rest =>
    match assignTopic memberCount topicMetadata with
    | .error e => .error e
    | .ok (sorted, _) =>
      match assignTopics memberCount rest with
      | .error e => .error e
      | .ok rest1 => .ok (sorted :: rest1)

/-- What a call of `Assign` leaves behind: the returned `GroupAssignment`, and
the two argument slices as the caller sees them afterwards. -/
structure AssignResult where
  groupAssignment : GroupAssignment
  members : List Member
  topicMetadatas : List TopicMetadata
deriving DecidableEq, Repr

/-- The method `RangeAssignmentStrategy.Assign`: `groupAssignment` starts
empty, the loop over the topics never touches it, and it is returned. -/
def Assign (members : List Member) (topicMetadatas : List TopicMetadata) :
    Except Fault AssignResult :=
  let groupAssignment : GroupAssignment := []
  match assignTopics members.length topicMetadatas with
  | .error e => .error e
  | .ok topicMetadatas1 =>
    .ok { groupAssignment := groupAssignment, members := members,
          topicMetadatas := topicMetadatas1 }

/-- A partition record with the given id (the other fields zero or empty). -/
def partitionOf (id : Nat) : PartitionMetadataInfo :=
  { PartitionErrorCode := 0, PartitionId := id, Leader := 0, Replicas := [], Isr := [] }

/-- A topic with the given name and partition ids, in the given order. -/
def topicOf (name : String) (ids : List Nat) : TopicMetadata :=
  { TopicErrorCode := 0, TopicName := name, PartitionMetadatas := ids.map partitionOf }

/-! ## The counts computed by `assignPartitions` -/

/-- One iteration of the loop, on natural numbers: after the share of the
highest of `i + 1` indices is taken away, the lower `i` indices are served
from the rest exactly as they are from the whole. -/
theorem share_step (i p k : Nat) (hk : k < i) :
    (p - p / (i + 1)) / i + (if k < (p - p / (i + 1)) % i then 1 else 0)
      = p / (i + 1) + (if k < p % (i + 1) then 1 else 0) := by
  have hi : 0 < i := by omega
  have hr : p % (i + 1) < i + 1 := Nat.mod_lt _ (by omega)
  have hp : (i + 1) * (p / (i + 1)) + p % (i + 1) = p := Nat.div_add_mod p (i + 1)
  have hsub : p - p / (i + 1) = p % (i + 1) + i * (p / (i + 1)) := by
    have : (i + 1) * (p / (i + 1)) = i * (p / (i + 1)) + p / (i + 1) := by ring
    omega
  rw [hsub, Nat.add_mul_div_left _ _ hi, Nat.add_mul_mod_self_left]
  rcases Nat.lt_or_ge (p % (i + 1)) i with h | h
  · rw [Nat.div_eq_of_lt h, Nat.mod_eq_of_lt h]
    omega
  · have he : p % (i + 1) = i := by omega
    rw [he, Nat.div_self hi, Nat.mod_self]
    simp [hk]
    omega

/-- The same step on the integers the code computes with. -/
theorem share_step_int (i k : Nat) (p : Int) (hp : 0 ≤ p) (hk : k < i) :
    (p - p / ((i : Int) + 1)) / (i : Int)
        + (if (k : Int) < (p - p / ((i : Int) + 1)) % (i : Int) then 1 else 0)
      = p / ((i : Int) + 1) + (if (k : Int) < p % ((i : Int) + 1) then 1 else 0) := by
  obtain ⟨n, rfl⟩ := Int.eq_ofNat_of_zero_le hp
  have h := share_step i n k hk
  have hle : n / (i + 1) ≤ n := Nat.div_le_self _ _
  have hcast : ((n : Int) - (n : Int) / ((i : Int) + 1)) = ((n - n / (i + 1) : Nat) : Int) := by
    push_cast [Nat.cast_sub hle]
    rfl
  rw [hcast]
  have h2 := congrArg (fun x : Nat => (x : Int)) h
  simp only at h2
  push_cast at h2
  exact_mod_cast h2

/-- The loop keeps the length of the slice. -/
theorem assignLoop_length (n : Nat) (p : Int) (rst : List Int) :
    (assignLoop n p rst).length = rst.length := by
  induction n generalizing p rst with
  | zero => rfl
  | succ i ih => simp [assignLoop, ih]

/-- The iterations `n - 1, ..., 0` leave the entries from `n` upwards alone. -/
theorem assignLoop_getElem?_ge (n : Nat) (p : Int) (rst : List Int) (k : Nat) (hk : n ≤ k) :
    (assignLoop n p rst)[k]? = rst[k]? := by
  induction n generalizing p rst with
  | zero => rfl
  | succ i ih =>
    have hne : i ≠ k := by omega
    simp only [assignLoop]
    rw [ih _ _ (by omega), List.getElem?_set_ne hne]

/-- Entry `k` after the iterations `n - 1, ..., 0` started with `p` partitions
left: the quotient `p / n`, and one more for the first `p % n` indices. -/
theorem assignLoop_getElem?_lt (n : Nat) (p : Int) (rst : List Int) (k : Nat)
    (hp : 0 ≤ p) (hk : k < n) (hn : n ≤ rst.length) :
    (assignLoop n p rst)[k]?
      = some (p / (n : Int) + (if (k : Int) < p % (n : Int) then 1 else 0)) := by
  induction n generalizing p rst with
  | zero => omega
  | succ i ih =>
    have hpos : (0 : Int) ≤ (i : Int) + 1 := by omega
    have hc : Int.tdiv p ((i : Int) + 1) = p / ((i : Int) + 1) := Int.tdiv_eq_ediv hp hpos
    have hq0 : 0 ≤ p / ((i : Int) + 1) := Int.ediv_nonneg hp hpos
    have hqle : p / ((i : Int) + 1) ≤ p := Int.ediv_le_self _ hp
    simp only [assignLoop, hc]
    rcases Nat.lt_or_ge k i with hlt | hge
    · rw [ih (p - p / ((i : Int) + 1)) _ (by omega) hlt (by simpa using by omega)]
      push_cast
      rw [share_step_int i k p hp hlt]
    · have hki : k = i := by omega
      subst hki
      rw [assignLoop_getElem?_ge _ _ _ _ (le_refl _), List.getElem?_set_self (by omega)]
      have hmod : p % ((k : Int) + 1) < (k : Int) + 1 := Int.emod_lt_of_pos _ (by omega)
      have hnot : ¬ ((k : Int) < p % ((k : Int) + 1)) := by omega
      push_cast
      simp [hnot]

/-- The count of member `i` in closed form. -/
theorem assignPartitions_getElem? (M : Nat) (P : Int) (hP : 0 ≤ P) (i : Nat) (hi : i < M) :
    (assignPartitions M P)[i]? = some (P / (M : Int) + (if (i : Int) < P % (M : Int) then 1 else 0)) :=
  assignLoop_getElem?_lt M P _ i hP hi (by simp)

/-- The slice returned has one entry per member. -/
theorem assignPartitions_length (M : Nat) (P : Int) : (assignPartitions M P).length = M := by
  simp [assignPartitions, assignLoop_length]

/-- The whole slice in closed form. -/
theorem assignPartitions_eq_map (M : Nat) (P : Int) (hP : 0 ≤ P) :
    assignPartitions M P
      = (List.range M).map
          (fun k : Nat => P / (M : Int) + (if (k : Int) < P % (M : Int) then 1 else 0)) := by
  apply List.ext_getElem?
  intro i
  rcases Nat.lt_or_ge i M with h | h
  · rw [assignPartitions_getElem? M P hP i h]
    simp [List.getElem?_map, List.getElem?_range h]
  · rw [List.getElem?_eq_none (by simpa [assignPartitions_length] using h),
      List.getElem?_eq_none (by simpa using h)]

/-- Shares of `q`, with one more for the indices below `r`, add up to
`M * q + min r M`. -/
theorem sum_shares (q r : Int) (M : Nat) :
    ((List.range M).map (fun k : Nat => q + (if (k : Int) < r then 1 else 0))).sum
      = (M : Int) * q + max 0 (min r (M : Int)) := by
  induction M with
  | zero => simp
  | succ m ih =>
    rw [List.range_succ, List.map_append, List.sum_append, ih]
    have hmul : ((m + 1 : Nat) : Int) * q = (m : Int) * q + q := by push_cast; ring
    rw [hmul]
    simp only [List.map_cons, List.map_nil, List.sum_cons, List.sum_nil]
    split_ifs with h <;> push_cast <;> omega

/-- The counts of at least one member add up to the partition count. -/
theorem counts_sum (M : Nat) (P : Int) (hM : 1 ≤ M) (hP : 0 ≤ P) :
    (assignPartitions M P).sum = P := by
  rw [assignPartitions_eq_map M P hP, sum_shares]
  have hMpos : (0 : Int) < (M : Int) := by omega
  have h0 : 0 ≤ P % (M : Int) := Int.emod_nonneg _ (by omega)
  have h1 : P % (M : Int) < (M : Int) := Int.emod_lt_of_pos _ hMpos
  have h2 : (M : Int) * (P / (M : Int)) + P % (M : Int) = P := Int.ediv_add_emod P M
  omega

/-- Every count is the quotient `P / M` or one more. -/
theorem counts_mem (M : Nat) (P : Int) (hP : 0 ≤ P) (c : Int) (hc : c ∈ assignPartitions M P) :
    c = P / (M : Int) ∨ c = P / (M : Int) + 1 := by
  rw [assignPartitions_eq_map M P hP] at hc
  obtain ⟨k, -, rfl⟩ := List.mem_map.1 hc
  split_ifs
  · exact Or.inr rfl
  · exact Or.inl (by omega)

/-- No count is negative. -/
theorem counts_nonneg (M : Nat) (P : Int) (hP : 0 ≤ P) (c : Int) (hc : c ∈ assignPartitions M P) :
    0 ≤ c := by
  have hq : 0 ≤ P / (M : Int) := Int.ediv_nonneg hP (by omega)
  rcases counts_mem M P hP c hc with h | h <;> omega

/-! ## The loops of `Assign` never leave their slices -/

/-- For counts that are not negative, the iterations the inner loops run add
up to the sum of the counts. -/
theorem sum_toNat (l : List Int) (h : ∀ c ∈ l, 0 ≤ c) :
    (((l.map Int.toNat).sum : Nat) : Int) = l.sum := by
  induction l with
  | nil => rfl
  | cons a t ih =>
    have ha : 0 ≤ a := h a (List.mem_cons_self _ _)
    have ht := ih (fun c hc => h c (List.mem_cons_of_mem _ hc))
    simp only [List.map_cons, List.sum_cons]
    rw [Nat.cast_add, ht, Int.toNat_of_nonneg ha]

/-- The inner loops of one topic run at most as many iterations as the topic
has partitions, whatever the number of members. -/
theorem counts_iterations (M P : Nat) :
    ((assignPartitions M (P : Int)).map Int.toNat).sum ≤ P := by
  have hP : (0 : Int) ≤ (P : Int) := Int.ofNat_nonneg P
  have h := sum_toNat (assignPartitions M (P : Int)) (counts_nonneg M P hP)
  rcases Nat.eq_zero_or_pos M with h0 | hpos
  · subst h0
    simp [assignPartitions, assignLoop]
  · rw [counts_sum M P hpos hP] at h
    exact_mod_cast h.le

/-- The inner loop runs to its end when `n` more slots exist from `idx` on, in
both slices; it advances `idx` by `n` and keeps the length of
`partitionAssignments`. -/
theorem fillLoop_ok (t : TopicMetadata) (n : Nat) (st : FillState)
    (h1 : st.idx + n ≤ t.PartitionMetadatas.length)
    (h2 : st.idx + n ≤ st.partitionAssignments.length) :
    ∃ st1, fillLoop t n st = .ok st1 ∧ st1.idx = st.idx + n ∧
      st1.partitionAssignments.length = st.partitionAssignments.length := by
  induction n generalizing st with
  | zero => exact ⟨st, rfl, rfl, rfl⟩
  | succ m ih =>
    have hlt : st.idx < t.PartitionMetadatas.length := by omega
    have hlt2 : st.idx < st.partitionAssignments.length := by omega
    obtain ⟨st1, hst1, hidx, hlen⟩ := ih
      { idx := st.idx + 1
        partitionAssignments := st.partitionAssignments.set st.idx
          (some { Topic := t.TopicName,
                  Partition := toInt32 (t.PartitionMetadatas[st.idx]).PartitionId }) }
      (by simp only; omega) (by simp only [List.length_set]; omega)
    refine ⟨st1, ?_, ?_, ?_⟩
    · simp only [fillLoop, List.getElem?_eq_getElem hlt, hlt2, if_true]
      exact hst1
    · simp only at hidx
      omega
    · simpa using hlen

/-- The loop over the members runs to its end when the counts still to be
served fit in what is left of the two slices. -/
theorem memberLoop_ok (t : TopicMetadata) (partitions : List Int) (n i : Nat) (st : FillState)
    (hn : i + n ≤ partitions.length)
    (hlen : st.partitionAssignments.length = t.PartitionMetadatas.length)
    (hsum : st.idx + ((partitions.drop i).map Int.toNat).sum ≤ t.PartitionMetadatas.length) :
    ∃ st1, memberLoop t partitions n i st = .ok st1 ∧
      st1.partitionAssignments.length = st.partitionAssignments.length := by
  induction n generalizing i st with
  | zero => exact ⟨st, rfl, rfl⟩
  | succ m ih =>
    have hi : i < partitions.length := by omega
    have hdrop : partitions.drop i = partitions[i] :: partitions.drop (i + 1) :=
      List.drop_eq_getElem_cons hi
    rw [hdrop] at hsum
    simp only [List.map_cons, List.sum_cons] at hsum
    obtain ⟨st1, hst1, hidx, hl1⟩ := fillLoop_ok t (partitions[i]).toNat st
      (by omega) (by omega)
    obtain ⟨st2, hst2, hl2⟩ := ih (i + 1) st1 (by omega) (by omega) (by omega)
    refine ⟨st2, ?_, by omega⟩
    simp only [memberLoop, List.getElem?_eq_getElem hi, hst1]
    exact hst2

/-- The sort rearranges the slice: nothing is added, dropped or repeated. -/
theorem sortByPartitionID_perm (a : List PartitionMetadataInfo) :
    (sortByPartitionID a).Perm a :=
  List.perm_insertionSort _ a

/-- After the sort no element is `Less` than an earlier one. -/
theorem sortByPartitionID_sorted (a : List PartitionMetadataInfo) :
    (sortByPartitionID a).Sorted ByPartitionID.Ordered :=
  List.sorted_insertionSort _ a

/-- A slice in sorted order whose partition ids are pairwise different is
strictly ascending. -/
theorem strict_of_sorted_nodup (l : List PartitionMetadataInfo)
    (hs : l.Sorted ByPartitionID.Ordered)
    (hn : (l.map (fun pm => pm.PartitionId)).Nodup) :
    l.Sorted ByPartitionID.Less := by
  have hne : l.Pairwise (fun a b => a.PartitionId ≠ b.PartitionId) := by
    simpa [List.Nodup, List.pairwise_map] using hn
  refine (List.Pairwise.and hs hne).imp ?_
  intro a b h
  have h1 := h.1
  have h2 := h.2
  simp only [ByPartitionID.Ordered, ByPartitionID.Less] at h1 ⊢
  omega

/-- Two arrangements of the same partitions with pairwise different ids are
sorted into the same slice. -/
theorem sortByPartitionID_congr (a b : List PartitionMetadataInfo) (hp : a.Perm b)
    (hn : (a.map (fun pm => pm.PartitionId)).Nodup) :
    sortByPartitionID a = sortByPartitionID b := by
  have hpa := sortByPartitionID_perm a
  have hpb := sortByPartitionID_perm b
  have hna : ((sortByPartitionID a).map (fun pm => pm.PartitionId)).Nodup :=
    ((hpa.map _).nodup_iff).2 hn
  have hnb : ((sortByPartitionID b).map (fun pm => pm.PartitionId)).Nodup :=
    (((hpb.trans hp.symm).map _).nodup_iff).2 hn
  exact List.eq_of_perm_of_sorted (hpa.trans (hp.trans hpb.symm))
    (strict_of_sorted_nodup _ (sortByPartitionID_sorted a) hna)
    (strict_of_sorted_nodup _ (sortByPartitionID_sorted b) hnb)

/-- A strictly ascending slice is left as it is. -/
theorem sortByPartitionID_of_strict (a : List PartitionMetadataInfo)
    (hs : a.Sorted ByPartitionID.Less) : sortByPartitionID a = a := by
  have hpa := sortByPartitionID_perm a
  have hn : (a.map (fun pm => pm.PartitionId)).Nodup := by
    simp only [List.Nodup, List.pairwise_map]
    refine List.Pairwise.imp ?_ hs
    intro x y h
    simp only [ByPartitionID.Less] at h
    omega
  have hna : ((sortByPartitionID a).map (fun pm => pm.PartitionId)).Nodup :=
    ((hpa.map _).nodup_iff).2 hn
  exact List.eq_of_perm_of_sorted hpa
    (strict_of_sorted_nodup _ (sortByPartitionID_sorted a) hna) hs

/-- Sorting keeps the number of partitions. -/
theorem sortByPartitionID_length (a : List PartitionMetadataInfo) :
    (sortByPartitionID a).length = a.length :=
  List.length_insertionSort _ a

/-- The body of the topic loop never panics: it leaves the topic sorted and a
`partitionAssignments` with one slot per partition. -/
theorem assignTopic_ok (M : Nat) (t : TopicMetadata) :
    ∃ pa, assignTopic M t = .ok (sortTopic t, pa) ∧
      pa.length = t.PartitionMetadatas.length := by
  obtain ⟨st1, hst1, hl1⟩ := memberLoop_ok (sortTopic t)
    (assignPartitions M ((sortTopic t).PartitionMetadatas.length : Int)) M 0
    { idx := 0
      partitionAssignments := List.replicate (sortTopic t).PartitionMetadatas.length none }
    (by simp [assignPartitions_length]) (by simp)
    (by simpa using counts_iterations M (sortTopic t).PartitionMetadatas.length)
  refine ⟨st1.partitionAssignments, ?_, ?_⟩
  · simp only [assignTopic, hst1]
  · simpa [sortTopic, sortByPartitionID_length] using hl1

/-- The topic loop never panics and leaves every topic sorted. -/
theorem assignTopics_ok (M : Nat) (ts : List TopicMetadata) :
    assignTopics M ts = .ok (ts.map sortTopic) := by
  induction ts with
  | nil => rfl
  | cons t rest ih =>
    obtain ⟨pa, hpa, -⟩ := assignTopic_ok M t
    simp only [assignTopics, hpa, ih, List.map_cons]

/-- What `Assign` does on any input: it returns the empty `GroupAssignment`
and leaves the member slice as it was and every topic sorted. -/
theorem Assign_eq (members : List Member) (ts : List TopicMetadata) :
    Assign members ts
      = .ok { groupAssignment := [], members := members, topicMetadatas := ts.map sortTopic } := by
  simp only [Assign, assignTopics_ok]

/-! ## Claims on `assignPartitions` -/

/-- C1: for every member count `M ≥ 1` and every partition count `P ≥ 0` the
entries of `assignPartitions M P` add up to exactly `P`; none of them is
negative, so a walk that hands out `counts[i]` partitions to member `i` hands
out `P` partitions in all, each once. -/
theorem assignPartitions_sum_eq (M : Nat) (P : Int) (hM : 1 ≤ M) (hP : 0 ≤ P) :
    (assignPartitions M P).sum = P ∧ ∀ c ∈ assignPartitions M P, 0 ≤ c :=
  ⟨counts_sum M P hM hP, counts_nonneg M P hP⟩

/-- C1 at three members and five partitions. -/
theorem assignPartitions_sum_eq_witness :
    1 ≤ 3 ∧ (0 : Int) ≤ 5 ∧
      ((assignPartitions 3 5).sum = 5 ∧ ∀ c ∈ assignPartitions 3 5, 0 ≤ c) :=
  ⟨by decide, by decide, assignPartitions_sum_eq 3 5 (by decide) (by decide)⟩

/-- C2: for every member count `M ≥ 1` and every partition count `P ≥ 0`, any
two entries of `assignPartitions M P` differ by at most one. -/
theorem assignPartitions_balanced (M : Nat) (P : Int) (_hM : 1 ≤ M) (hP : 0 ≤ P) :
    ∀ x ∈ assignPartitions M P, ∀ y ∈ assignPartitions M P, x - y ≤ 1 := by
  intro x hx y hy
  rcases counts_mem M P hP x hx with h1 | h1 <;>
    rcases counts_mem M P hP y hy with h2 | h2 <;> omega

/-- C2 at four members and six partitions. -/
theorem assignPartitions_balanced_witness :
    1 ≤ 4 ∧ (0 : Int) ≤ 6 ∧
      ∀ x ∈ assignPartitions 4 6, ∀ y ∈ assignPartitions 4 6, x - y ≤ 1 :=
  ⟨by decide, by decide, assignPartitions_balanced 4 6 (by decide) (by decide)⟩

/-- C3: for `M ≥ 1` and `P ≥ 0`, `assignPartitions M P` has `M` entries, entry
`i` is `P / M + 1` when `i < P mod M` and `P / M` otherwise, and the entries
never increase with the member index. -/
theorem assignPartitions_remainder_low (M : Nat) (P : Int) (_hM : 1 ≤ M) (hP : 0 ≤ P) :
    (assignPartitions M P).length = M ∧
    (∀ i : Nat, i < M →
      (assignPartitions M P)[i]?
        = some (if (i : Int) < P % (M : Int) then P / (M : Int) + 1 else P / (M : Int))) ∧
    List.Pairwise (fun a b : Int => b ≤ a) (assignPartitions M P) := by
  refine ⟨assignPartitions_length M P, ?_, ?_⟩
  · intro i hi
    rw [assignPartitions_getElem? M P hP i hi]
    split_ifs <;> simp
  · rw [assignPartitions_eq_map M P hP, List.pairwise_map]
    refine List.Pairwise.imp_of_mem ?_ (List.pairwise_lt_range M)
    intro a b _ _ hab
    have hab2 : (a : Int) < (b : Int) := by exact_mod_cast hab
    split_ifs <;> omega

/-- C3 at three members and five partitions. -/
theorem assignPartitions_remainder_low_witness :
    1 ≤ 3 ∧ (0 : Int) ≤ 5 ∧
      ((assignPartitions 3 5).length = 3 ∧
      (∀ i : Nat, i < 3 →
        (assignPartitions 3 5)[i]?
          = some (if (i : Int) < (5 : Int) % ((3 : Nat) : Int)
              then (5 : Int) / ((3 : Nat) : Int) + 1 else (5 : Int) / ((3 : Nat) : Int))) ∧
      List.Pairwise (fun a b : Int => b ≤ a) (assignPartitions 3 5)) :=
  ⟨by decide, by decide, assignPartitions_remainder_low 3 5 (by decide) (by decide)⟩

/-- C4: the two examples documented above `assignPartitions`:
`(3,5) => [2,2,1]` and `(5,10) => [2,2,2,2,2]`. -/
theorem assignPartitions_examples :
    assignPartitions 3 5 = [2, 2, 1] ∧ assignPartitions 5 10 = [2, 2, 2, 2, 2] := by
  constructor <;> decide

/-- Two topics that differ only in the order of their partitions, with
pairwise different ids, are the same topic once sorted. -/
theorem sortTopic_congr (a b : TopicMetadata)
    (hc : a.TopicErrorCode = b.TopicErrorCode) (hname : a.TopicName = b.TopicName)
    (hp : a.PartitionMetadatas.Perm b.PartitionMetadatas)
    (hn : (a.PartitionMetadatas.map (fun pm => pm.PartitionId)).Nodup) :
    sortTopic a = sortTopic b := by
  simp only [sortTopic, hc, hname, sortByPartitionID_congr _ _ hp hn]

/-- The body of the topic loop works on the sorted topic only. -/
theorem assignTopic_congr (M : Nat) (a b : TopicMetadata) (h : sortTopic a = sortTopic b) :
    assignTopic M a = assignTopic M b := by
  simp only [assignTopic, h]

/-! ## Claims on `Assign` -/

/-- C5: with one member and one topic holding the single partition `0`, the
loop body builds the assignment `("t", 0)`, yet the `GroupAssignment` that
`Assign` returns is empty: the input pair `("t", 0)` is in no member's share. -/
theorem Assign_returns_no_partition :
    assignTopic 1 (topicOf "t" [0])
        = .ok (topicOf "t" [0], [some { Topic := "t", Partition := 0 }]) ∧
    Assign [{ MemberID := "m0" }] [topicOf "t" [0]]
        = .ok { groupAssignment := [], members := [{ MemberID := "m0" }],
                topicMetadatas := [topicOf "t" [0]] } :=
  ⟨rfl, rfl⟩

/-- C6: with two members the `GroupAssignment` that `Assign` returns has no
entry at all, where the claim asks for two, carrying `"m0"` and `"m1"`. -/
theorem Assign_returns_no_member :
    ∃ r, Assign [{ MemberID := "m0" }, { MemberID := "m1" }] [topicOf "t" [0, 1, 2]] = .ok r ∧
      r.groupAssignment.length = 0 ∧
      r.groupAssignment.map (fun e => e.MemberID) ≠ ["m0", "m1"] :=
  ⟨_, rfl, rfl, by decide⟩

/-- C7, as stated, fails: a topic handed in with its partitions in the order
`1, 0` holds them in the order `0, 1` after the call. -/
theorem Assign_reorders_input :
    Assign [{ MemberID := "m0" }] [topicOf "t" [1, 0]]
        = .ok { groupAssignment := [], members := [{ MemberID := "m0" }],
                topicMetadatas := [topicOf "t" [0, 1]] } ∧
    (topicOf "t" [0, 1]).PartitionMetadatas ≠ (topicOf "t" [1, 0]).PartitionMetadatas :=
  ⟨rfl, by decide⟩

/-- C7, amended: `Assign` returns without a panic and leaves the member list
as it was; the topic list keeps its topics in order, each with its error code
and name, and each topic's `PartitionMetadatas` holds the same elements as
before, rearranged so that no element has a smaller partition id than an
earlier one. A list that was strictly ascending by partition id is unchanged. -/
theorem Assign_frame (members : List Member) (topicMetadatas : List TopicMetadata) :
    ∃ r, Assign members topicMetadatas = .ok r ∧ r.members = members ∧
      List.Forall₂
        (fun before after : TopicMetadata =>
          after.TopicErrorCode = before.TopicErrorCode ∧
          after.TopicName = before.TopicName ∧
          after.PartitionMetadatas.Perm before.PartitionMetadatas ∧
          after.PartitionMetadatas.Sorted ByPartitionID.Ordered ∧
          (before.PartitionMetadatas.Sorted ByPartitionID.Less →
            after.PartitionMetadatas = before.PartitionMetadatas))
        topicMetadatas r.topicMetadatas := by
  refine ⟨_, Assign_eq members topicMetadatas, rfl, ?_⟩
  simp only [List.forall₂_map_right_iff, List.forall₂_same]
  intro t _
  exact ⟨rfl, rfl, sortByPartitionID_perm _, sortByPartitionID_sorted _,
    sortByPartitionID_of_strict _⟩

/-- C8, as stated, fails: with no member and one topic `Assign` returns a
`GroupAssignment` (the empty one) and raises nothing. -/
theorem no_members_not_rejected :
    Assign [] [topicOf "t" [0, 1]]
        = .ok { groupAssignment := [], members := [], topicMetadatas := [topicOf "t" [0, 1]] } ∧
    ∀ e, Assign [] [topicOf "t" [0, 1]] ≠ .error e :=
  ⟨rfl, fun e h => by simp [Assign_eq] at h⟩

/-- C8, amended: called with an empty member list `Assign` does not fail, for
every topic list; it returns the empty `GroupAssignment`, having sorted each
topic's partitions. -/
theorem Assign_no_members (topicMetadatas : List TopicMetadata) :
    Assign [] topicMetadatas
      = .ok { groupAssignment := [], members := [],
              topicMetadatas := topicMetadatas.map sortTopic } :=
  Assign_eq [] topicMetadatas

/-- C9, as stated, fails: a topic listing partition id `1` twice makes
`Assign` return a `GroupAssignment` (the empty one) and raise nothing. -/
theorem duplicate_id_not_rejected :
    ¬ ((topicOf "t" [1, 1]).PartitionMetadatas.map (fun pm => pm.PartitionId)).Nodup ∧
    Assign [{ MemberID := "m0" }] [topicOf "t" [1, 1]]
        = .ok { groupAssignment := [], members := [{ MemberID := "m0" }],
                topicMetadatas := [topicOf "t" [1, 1]] } ∧
    ∀ e, Assign [{ MemberID := "m0" }] [topicOf "t" [1, 1]] ≠ .error e :=
  ⟨by decide, rfl, fun e h => by simp [Assign_eq] at h⟩

/-- C9, amended: called with a non-empty member list and a topic whose
partition metadata holds the same partition id twice, `Assign` does not fail;
it returns the empty `GroupAssignment`, as it does for any input. -/
theorem Assign_duplicate_id (members : List Member) (topicMetadatas : List TopicMetadata)
    (_hm : members ≠ [])
    (_hd : ∃ t ∈ topicMetadatas,
      ¬ (t.PartitionMetadatas.map (fun pm => pm.PartitionId)).Nodup) :
    ∃ r, Assign members topicMetadatas = .ok r ∧ r.groupAssignment = [] :=
  ⟨_, Assign_eq members topicMetadatas, rfl⟩

/-- C9, amended, at two members and the partition ids `2, 0, 2`. -/
theorem Assign_duplicate_id_witness :
    ([{ MemberID := "m0" }, { MemberID := "m1" }] : List Member) ≠ [] ∧
    (∃ t ∈ [topicOf "t" [2, 0, 2]],
      ¬ (t.PartitionMetadatas.map (fun pm => pm.PartitionId)).Nodup) ∧
    ∃ r, Assign [{ MemberID := "m0" }, { MemberID := "m1" }] [topicOf "t" [2, 0, 2]] = .ok r ∧
      r.groupAssignment = [] :=
  ⟨by decide, ⟨_, List.mem_singleton.2 rfl, by decide⟩,
    Assign_duplicate_id _ _ (by decide) ⟨_, List.mem_singleton.2 rfl, by decide⟩⟩

/-- C10: for every member list and any two topic lists that agree topic by
topic (error code, name, partitions) except for the order of the partitions
inside each topic, the partition ids of a topic being pairwise different, both
calls of `Assign` return, and return identical `GroupAssignment` values.
Moreover they leave identical topic lists behind, and the loop body computes
the same `partitionAssignments` for corresponding topics. -/
theorem Assign_deterministic (members : List Member) (ts1 ts2 : List TopicMetadata)
    (h : List.Forall₂
      (fun a b : TopicMetadata =>
        a.TopicErrorCode = b.TopicErrorCode ∧ a.TopicName = b.TopicName ∧
        a.PartitionMetadatas.Perm b.PartitionMetadatas ∧
        (a.PartitionMetadatas.map (fun pm => pm.PartitionId)).Nodup) ts1 ts2) :
    ∃ r1 r2, Assign members ts1 = .ok r1 ∧ Assign members ts2 = .ok r2 ∧
      r1.groupAssignment = r2.groupAssignment ∧
      r1.topicMetadatas = r2.topicMetadatas ∧
      List.Forall₂
        (fun a b : TopicMetadata => assignTopic members.length a = assignTopic members.length b)
        ts1 ts2 := by
  have hsort : List.Forall₂ (fun a b : TopicMetadata => sortTopic a = sortTopic b) ts1 ts2 :=
    h.imp (fun a b hab => sortTopic_congr a b hab.1 hab.2.1 hab.2.2.1 hab.2.2.2)
  refine ⟨_, _, Assign_eq members ts1, Assign_eq members ts2, rfl, ?_, ?_⟩
  · show ts1.map sortTopic = ts2.map sortTopic
    clear h
    induction hsort with
    | nil => rfl
    | cons hab _ ih => simp only [List.map_cons, hab, ih]
  · exact hsort.imp (fun a b hab => assignTopic_congr members.length a b hab)

/-- C10 at two members and one topic given as `2, 0, 1` and as `0, 1, 2`. -/
theorem Assign_deterministic_witness :
    List.Forall₂
      (fun a b : TopicMetadata =>
        a.TopicErrorCode = b.TopicErrorCode ∧ a.TopicName = b.TopicName ∧
        a.PartitionMetadatas.Perm b.PartitionMetadatas ∧
        (a.PartitionMetadatas.map (fun pm => pm.PartitionId)).Nodup)
      [topicOf "t" [2, 0, 1]] [topicOf "t" [0, 1, 2]] ∧
    ∃ r1 r2,
      Assign [{ MemberID := "m0" }, { MemberID := "m1" }] [topicOf "t" [2, 0, 1]] = .ok r1 ∧
      Assign [{ MemberID := "m0" }, { MemberID := "m1" }] [topicOf "t" [0, 1, 2]] = .ok r2 ∧
      r1.groupAssignment = r2.groupAssignment ∧
      r1.topicMetadatas = r2.topicMetadatas ∧
      List.Forall₂
        (fun a b : TopicMetadata =>
          assignTopic ([{ MemberID := "m0" }, { MemberID := "m1" }] : List Member).length a
            = assignTopic ([{ MemberID := "m0" }, { MemberID := "m1" }] : List Member).length b)
        [topicOf "t" [2, 0, 1]] [topicOf "t" [0, 1, 2]] :=
  have hrel : List.Forall₂
      (fun a b : TopicMetadata =>
        a.TopicErrorCode = b.TopicErrorCode ∧ a.TopicName = b.TopicName ∧
        a.PartitionMetadatas.Perm b.PartitionMetadatas ∧
        (a.PartitionMetadatas.map (fun pm => pm.PartitionId)).Nodup)
      [topicOf "t" [2, 0, 1]] [topicOf "t" [0, 1, 2]] :=
    List.Forall₂.cons ⟨rfl, rfl, by decide, by decide⟩ List.Forall₂.nil
  ⟨hrel, Assign_deterministic _ _ _ hrel⟩

/-! ## What the loops of `Assign` write -/

/-- The inner loop, run for `n` iterations from `idx`, writes the slots
`idx, ..., idx + n - 1` and no other: slot `k` receives the topic's name with
the converted id of the partition at position `k`. -/
theorem fillLoop_run (t : TopicMetadata) (n : Nat) (st : FillState)
    (h1 : st.idx + n ≤ t.PartitionMetadatas.length)
    (h2 : st.idx + n ≤ st.partitionAssignments.length) :
    ∃ st1, fillLoop t n st = .ok st1 ∧ st1.idx = st.idx + n ∧
      st1.partitionAssignments.length = st.partitionAssignments.length ∧
      ∀ k, st1.partitionAssignments[k]?
        = if st.idx ≤ k ∧ k < st.idx + n then
            (t.PartitionMetadatas[k]?).map
              (fun pm => some { Topic := t.TopicName, Partition := toInt32 pm.PartitionId })
          else st.partitionAssignments[k]? := by
  induction n generalizing st with
  | zero =>
    refine ⟨st, rfl, rfl, rfl, ?_⟩
    intro k
    have : ¬ (st.idx ≤ k ∧ k < st.idx + 0) := by omega
    simp only [this, if_false]
  | succ m ih =>
    have hlt : st.idx < t.PartitionMetadatas.length := by omega
    have hlt2 : st.idx < st.partitionAssignments.length := by omega
    obtain ⟨st1, hst1, hidx, hlen, hslots⟩ := ih
      { idx := st.idx + 1
        partitionAssignments := st.partitionAssignments.set st.idx
          (some { Topic := t.TopicName,
                  Partition := toInt32 (t.PartitionMetadatas[st.idx]).PartitionId }) }
      (by simp only; omega) (by simp only [List.length_set]; omega)
    refine ⟨st1, ?_, ?_, ?_, ?_⟩
    · simp only [fillLoop, List.getElem?_eq_getElem hlt, hlt2, if_true]
      exact hst1
    · simp only at hidx
      omega
    · simpa using hlen
    · intro k
      rw [hslots k]
      simp only
      rcases Nat.lt_trichotomy k st.idx with hk | hk | hk
      · have c1 : ¬ (st.idx + 1 ≤ k ∧ k < st.idx + 1 + m) := by omega
        have c2 : ¬ (st.idx ≤ k ∧ k < st.idx + (m + 1)) := by omega
        rw [if_neg c1, if_neg c2, List.getElem?_set_ne (by omega)]
      · subst hk
        have c1 : ¬ (st.idx + 1 ≤ st.idx ∧ st.idx < st.idx + 1 + m) := by omega
        have c2 : st.idx ≤ st.idx ∧ st.idx < st.idx + (m + 1) := by omega
        rw [if_neg c1, if_pos c2, List.getElem?_set_self hlt2, List.getElem?_eq_getElem hlt]
        rfl
      · have c1 : st.idx + 1 ≤ k ∧ k < st.idx + 1 + m ↔ st.idx ≤ k ∧ k < st.idx + (m + 1) := by
          omega
        simp only [c1]
        split_ifs
        · rfl
        · rw [List.getElem?_set_ne (by omega)]

/-- The member loop, run for `n` members from member `i`, advances `idx` by
the counts of these members and writes the slots it passes over, and no
other. -/
theorem memberLoop_run (t : TopicMetadata) (partitions : List Int) (n i : Nat) (st : FillState)
    (hn : i + n ≤ partitions.length)
    (hlen : st.partitionAssignments.length = t.PartitionMetadatas.length)
    (hsum : st.idx + (((partitions.drop i).take n).map Int.toNat).sum
      ≤ t.PartitionMetadatas.length) :
    ∃ st1, memberLoop t partitions n i st = .ok st1 ∧
      st1.idx = st.idx + (((partitions.drop i).take n).map Int.toNat).sum ∧
      st1.partitionAssignments.length = st.partitionAssignments.length ∧
      ∀ k, st1.partitionAssignments[k]?
        = if st.idx ≤ k ∧ k < st1.idx then
            (t.PartitionMetadatas[k]?).map
              (fun pm => some { Topic := t.TopicName, Partition := toInt32 pm.PartitionId })
          else st.partitionAssignments[k]? := by
  induction n generalizing i st with
  | zero =>
    refine ⟨st, rfl, by simp, rfl, ?_⟩
    intro k
    have : ¬ (st.idx ≤ k ∧ k < st.idx) := by omega
    simp only [this, if_false]
  | succ m ih =>
    have hi : i < partitions.length := by omega
    have hdrop : partitions.drop i = partitions[i] :: partitions.drop (i + 1) :=
      List.drop_eq_getElem_cons hi
    rw [hdrop] at hsum ⊢
    simp only [List.take_succ_cons, List.map_cons, List.sum_cons] at hsum ⊢
    obtain ⟨st1, hst1, hidx1, hl1, hs1⟩ := fillLoop_run t (partitions[i]).toNat st
      (by omega) (by omega)
    obtain ⟨st2, hst2, hidx2, hl2, hs2⟩ := ih (i + 1) st1 (by omega) (by omega) (by omega)
    refine ⟨st2, ?_, by omega, by omega, ?_⟩
    · simp only [memberLoop, List.getElem?_eq_getElem hi, hst1]
      exact hst2
    · intro k
      rw [hs2 k, hs1 k]
      by_cases c2 : st1.idx ≤ k ∧ k < st2.idx
      · have c : st.idx ≤ k ∧ k < st2.idx := by omega
        rw [if_pos c2, if_pos c]
      · rw [if_neg c2]
        by_cases c1 : st.idx ≤ k ∧ k < st.idx + (partitions[i]).toNat
        · have c : st.idx ≤ k ∧ k < st2.idx := by omega
          rw [if_pos c1, if_pos c]
        · have c : ¬ (st.idx ≤ k ∧ k < st2.idx) := by omega
          rw [if_neg c1, if_neg c]

/-- The iterations run for the first `j` members fit in those run for all. -/
theorem take_iterations_le (l : List Int) (j : Nat) :
    ((l.take j).map Int.toNat).sum ≤ (l.map Int.toNat).sum := by
  have h := List.sum_take_add_sum_drop (l.map Int.toNat) j
  rw [← List.map_take] at h
  omega

/-- The counts of the first `j` members add up to the number of iterations
their inner loops run. -/
theorem take_counts_sum (M : Nat) (P : Int) (hP : 0 ≤ P) (j : Nat) :
    (((((assignPartitions M P).take j).map Int.toNat).sum : Nat) : Int)
      = ((assignPartitions M P).take j).sum :=
  sum_toNat _ (fun c hc => counts_nonneg M P hP c (List.mem_of_mem_take hc))

/-- Running the member loop for `a + b` members is running it for `a` members
and then, from the state reached, for `b` more. -/
theorem memberLoop_append (t : TopicMetadata) (partitions : List Int) (a b i : Nat)
    (st : FillState) :
    memberLoop t partitions (a + b) i st
      = match memberLoop t partitions a i st with
        | .error e => .error e
        | .ok st1 => memberLoop t partitions b (i + a) st1 := by
  induction a generalizing i st with
  | zero => simp [memberLoop]
  | succ m ih =>
    have hadd : m + 1 + b = (m + b) + 1 := by omega
    have hidx : i + (m + 1) = i + 1 + m := by omega
    rw [hadd, hidx]
    simp only [memberLoop]
    cases partitions[i]? with
    | none => rfl
    | some c =>
      simp only
      cases fillLoop t c.toNat st with
      | error e => rfl
      | ok st1 => exact ih (i + 1) st1

/-- The state of the topic loop body after the iterations for the first `j`
members: `idx` is the sum of their counts, the slots below `idx` are written,
the others still hold nil. -/
theorem memberLoop_prefix (M : Nat) (t : TopicMetadata) (j : Nat) (hj : j ≤ M) :
    ∃ st, memberLoop (sortTopic t)
        (assignPartitions M ((sortTopic t).PartitionMetadatas.length : Int)) j 0
        { idx := 0
          partitionAssignments := List.replicate (sortTopic t).PartitionMetadatas.length none }
        = .ok st ∧
      st.idx
        = (((assignPartitions M ((sortTopic t).PartitionMetadatas.length : Int)).take j).map
            Int.toNat).sum ∧
      (st.idx : Int)
        = ((assignPartitions M ((sortTopic t).PartitionMetadatas.length : Int)).take j).sum ∧
      st.idx ≤ (sortTopic t).PartitionMetadatas.length ∧
      st.partitionAssignments.length = (sortTopic t).PartitionMetadatas.length ∧
      ∀ k, st.partitionAssignments[k]?
        = if k < st.idx then
            ((sortTopic t).PartitionMetadatas[k]?).map
              (fun pm => some { Topic := t.TopicName, Partition := toInt32 pm.PartitionId })
          else if k < (sortTopic t).PartitionMetadatas.length then some none else none := by
  have hP : (0 : Int) ≤ ((sortTopic t).PartitionMetadatas.length : Int) := Int.ofNat_nonneg _
  have hle := take_iterations_le
    (assignPartitions M ((sortTopic t).PartitionMetadatas.length : Int)) j
  have htot := counts_iterations M (sortTopic t).PartitionMetadatas.length
  obtain ⟨st, hst, hidx, hlen, hslots⟩ := memberLoop_run (sortTopic t)
    (assignPartitions M ((sortTopic t).PartitionMetadatas.length : Int)) j 0
    { idx := 0
      partitionAssignments := List.replicate (sortTopic t).PartitionMetadatas.length none }
    (by simpa [assignPartitions_length] using hj) (by simp)
    (by simp only [List.drop_zero]; omega)
  simp only [List.drop_zero, Nat.zero_add] at hidx
  refine ⟨st, hst, hidx, ?_, by omega, by simpa using hlen, ?_⟩
  · rw [hidx]
    exact take_counts_sum M _ hP j
  · intro k
    rw [hslots k]
    simp only [Nat.zero_le, true_and, List.getElem?_replicate]
    rfl

/-- The iterations run for the first `j` members fit in those run for the
first `j + 1`. -/
theorem take_iterations_mono (l : List Int) (j : Nat) :
    ((l.take j).map Int.toNat).sum ≤ ((l.take (j + 1)).map Int.toNat).sum := by
  have h := take_iterations_le (l.take (j + 1)) j
  rwa [List.take_take, Nat.min_eq_left (Nat.le_succ j)] at h

/-- The iterations run for the first `j + 1` members are those run for the
first `j` and those of member `j`. -/
theorem take_succ_iterations (l : List Int) (j : Nat) (hj : j < l.length) :
    ((l.take (j + 1)).map Int.toNat).sum
      = ((l.take j).map Int.toNat).sum + (l[j]).toNat := by
  rw [List.take_succ, List.getElem?_eq_getElem hj]
  simp only [Option.toList, List.map_append, List.sum_append, List.map_cons, List.map_nil,
    List.sum_cons, List.sum_nil, Nat.add_zero]

/-- Below `2 ^ 31` the conversion to `int32` keeps the value. -/
theorem toInt32_of_lt (x : Nat) (h : x < 2 ^ 31) : toInt32 x = (x : Int) := by
  have h1 : x % 2 ^ 32 = x := Nat.mod_eq_of_lt (by omega)
  simp only [toInt32, h1, h, if_true]

/-- With at least one member the member loop ends with `idx` at the number
of partitions. -/
theorem memberLoop_final_idx (M : Nat) (P : Nat) (hM : 1 ≤ M) (n : Nat)
    (h : (n : Int) = ((assignPartitions M (P : Int)).take M).sum) : n = P := by
  have hlen : (assignPartitions M (P : Int)).length ≤ M := by
    rw [assignPartitions_length]
  rw [List.take_of_length_le hlen, counts_sum M P hM (Int.ofNat_nonneg P)] at h
  exact_mod_cast h

/-! ## Claims on the body of the topic loop -/

/-- C11, as stated, fails: a partition id of `2 ^ 31` is a `uint32`, and the
slot written for it holds `int32(2147483648) = -2147483648`, which is not the
partition id. -/
theorem slot_holds_converted_id :
    assignTopic 1 (topicOf "t" [2147483648])
        = .ok (topicOf "t" [2147483648], [some { Topic := "t", Partition := -2147483648 }]) ∧
    ((topicOf "t" [2147483648]).PartitionMetadatas.map (fun pm => pm.PartitionId)).Nodup ∧
    ((-2147483648 : Int) ≠ ((2147483648 : Nat) : Int)) :=
  ⟨rfl, by decide, by decide⟩

/-- C11, amended: for `M ≥ 1` members and a topic whose `P` partition ids are
pairwise different, the loop body works on the partitions in strictly
ascending order of id (position `k` is the `k`-th smallest), returns a
`partitionAssignments` of `P` slots, all filled, slot `k` holding the topic's
name and the `int32` conversion of the id at position `k`, which is that id
when it is below `2 ^ 31`. The iteration for member `i` starts with `idx` at
`counts[0] + ... + counts[i-1]`, ends with `idx` at `counts[0] + ... + counts[i]`,
writes exactly the slots in between and leaves every other slot as it was. -/
theorem assignTopic_contiguous (M : Nat) (t : TopicMetadata) (hM : 1 ≤ M)
    (hu : (t.PartitionMetadatas.map (fun pm => pm.PartitionId)).Nodup) :
    ((sortTopic t).PartitionMetadatas.Perm t.PartitionMetadatas ∧
      (sortTopic t).PartitionMetadatas.Sorted ByPartitionID.Less) ∧
    (∃ pa, assignTopic M t = .ok (sortTopic t, pa) ∧
      pa.length = t.PartitionMetadatas.length ∧
      ∀ k, k < t.PartitionMetadatas.length →
        ∃ pm, (sortTopic t).PartitionMetadatas[k]? = some pm ∧
          pa[k]? = some (some { Topic := t.TopicName, Partition := toInt32 pm.PartitionId }) ∧
          (pm.PartitionId < 2 ^ 31 → toInt32 pm.PartitionId = (pm.PartitionId : Int))) ∧
    (∀ i, i < M →
      ∃ st0 st1,
        memberLoop (sortTopic t)
            (assignPartitions M ((sortTopic t).PartitionMetadatas.length : Int)) i 0
            { idx := 0
              partitionAssignments :=
                List.replicate (sortTopic t).PartitionMetadatas.length none } = .ok st0 ∧
        memberLoop (sortTopic t)
            (assignPartitions M ((sortTopic t).PartitionMetadatas.length : Int)) 1 i st0
          = .ok st1 ∧
        memberLoop (sortTopic t)
            (assignPartitions M ((sortTopic t).PartitionMetadatas.length : Int)) (i + 1) 0
            { idx := 0
              partitionAssignments :=
                List.replicate (sortTopic t).PartitionMetadatas.length none } = .ok st1 ∧
        (st0.idx : Int)
          = ((assignPartitions M ((sortTopic t).PartitionMetadatas.length : Int)).take i).sum ∧
        (st1.idx : Int)
          = ((assignPartitions M
              ((sortTopic t).PartitionMetadatas.length : Int)).take (i + 1)).sum ∧
        ∀ k, st1.partitionAssignments[k]?
          = if st0.idx ≤ k ∧ k < st1.idx then
              ((sortTopic t).PartitionMetadatas[k]?).map
                (fun pm => some { Topic := t.TopicName, Partition := toInt32 pm.PartitionId })
            else st0.partitionAssignments[k]?) := by
  have hlenS : (sortTopic t).PartitionMetadatas.length = t.PartitionMetadatas.length :=
    sortByPartitionID_length _
  refine ⟨⟨sortByPartitionID_perm _, ?_⟩, ?_, ?_⟩
  · exact strict_of_sorted_nodup _ (sortByPartitionID_sorted _)
      ((((sortByPartitionID_perm t.PartitionMetadatas).map _).nodup_iff).2 hu)
  · obtain ⟨st, hst, -, hidx, -, hlen, hslots⟩ := memberLoop_prefix M t M (le_refl M)
    have hfin : st.idx = (sortTopic t).PartitionMetadatas.length :=
      memberLoop_final_idx M _ hM st.idx hidx
    refine ⟨st.partitionAssignments, ?_, by omega, ?_⟩
    · simp only [assignTopic, hst]
    · intro k hk
      have hk2 : k < (sortTopic t).PartitionMetadatas.length := by omega
      refine ⟨(sortTopic t).PartitionMetadatas[k], List.getElem?_eq_getElem hk2, ?_,
        toInt32_of_lt _⟩
      rw [hslots k, if_pos (by omega), List.getElem?_eq_getElem hk2]
      rfl
  · intro i hi
    obtain ⟨st0, hst0, hn0, hidx0, -, -, hs0⟩ := memberLoop_prefix M t i (by omega)
    obtain ⟨st1, hst1, hn1, hidx1, hle1, -, hs1⟩ := memberLoop_prefix M t (i + 1) (by omega)
    have hmono := take_iterations_mono
      (assignPartitions M ((sortTopic t).PartitionMetadatas.length : Int)) i
    have hstep := memberLoop_append (sortTopic t)
      (assignPartitions M ((sortTopic t).PartitionMetadatas.length : Int)) i 1 0
      { idx := 0
        partitionAssignments := List.replicate (sortTopic t).PartitionMetadatas.length none }
    rw [hst1, hst0] at hstep
    simp only [Nat.zero_add] at hstep
    refine ⟨st0, st1, hst0, hstep.symm, hst1, hidx0, hidx1, ?_⟩
    intro k
    rw [hs1 k, hs0 k]
    by_cases c1 : k < st1.idx
    · by_cases c0 : k < st0.idx
      · have c : ¬ (st0.idx ≤ k ∧ k < st1.idx) := by omega
        rw [if_pos c1, if_pos c0, if_neg c]
      · have c : st0.idx ≤ k ∧ k < st1.idx := by omega
        rw [if_pos c1, if_pos c]
    · have c : ¬ (st0.idx ≤ k ∧ k < st1.idx) := by omega
      have c0 : ¬ k < st0.idx := by omega
      rw [if_neg c1, if_neg c, if_neg c0]

/-- C11, amended, at three members and the partition ids `0, 1, 2, 3, 4`:
member 0 is served the slots of the ids `0, 1`, member 1 those of `2, 3`,
member 2 that of `4`. -/
theorem assignTopic_contiguous_witness :
    1 ≤ 3 ∧
    ((topicOf "t" [0, 1, 2, 3, 4]).PartitionMetadatas.map (fun pm => pm.PartitionId)).Nodup ∧
    (∃ pa, assignTopic 3 (topicOf "t" [0, 1, 2, 3, 4])
        = .ok (sortTopic (topicOf "t" [0, 1, 2, 3, 4]), pa) ∧
      pa.length = (topicOf "t" [0, 1, 2, 3, 4]).PartitionMetadatas.length ∧
      ∀ k, k < (topicOf "t" [0, 1, 2, 3, 4]).PartitionMetadatas.length →
        ∃ pm, (sortTopic (topicOf "t" [0, 1, 2, 3, 4])).PartitionMetadatas[k]? = some pm ∧
          pa[k]? = some (some { Topic := (topicOf "t" [0, 1, 2, 3, 4]).TopicName,
                                Partition := toInt32 pm.PartitionId }) ∧
          (pm.PartitionId < 2 ^ 31 → toInt32 pm.PartitionId = (pm.PartitionId : Int))) ∧
    memberLoop (sortTopic (topicOf "t" [0, 1, 2, 3, 4])) (assignPartitions 3 5) 1 0
        { idx := 0, partitionAssignments := List.replicate 5 none }
      = .ok { idx := 2
              partitionAssignments :=
                [some { Topic := "t", Partition := 0 }, some { Topic := "t", Partition := 1 },
                 none, none, none] } ∧
    memberLoop (sortTopic (topicOf "t" [0, 1, 2, 3, 4])) (assignPartitions 3 5) 2 0
        { idx := 0, partitionAssignments := List.replicate 5 none }
      = .ok { idx := 4
              partitionAssignments :=
                [some { Topic := "t", Partition := 0 }, some { Topic := "t", Partition := 1 },
                 some { Topic := "t", Partition := 2 }, some { Topic := "t", Partition := 3 },
                 none] } ∧
    memberLoop (sortTopic (topicOf "t" [0, 1, 2, 3, 4])) (assignPartitions 3 5) 3 0
        { idx := 0, partitionAssignments := List.replicate 5 none }
      = .ok { idx := 5
              partitionAssignments :=
                [some { Topic := "t", Partition := 0 }, some { Topic := "t", Partition := 1 },
                 some { Topic := "t", Partition := 2 }, some { Topic := "t", Partition := 3 },
                 some { Topic := "t", Partition := 4 }] } :=
  ⟨by decide, by decide,
    (assignTopic_contiguous 3 (topicOf "t" [0, 1, 2, 3, 4]) (by decide) (by decide)).2.1,
    rfl, rfl, rfl⟩

/-- C12: for every topic passed to `Assign`, the loop body runs on the topic
as the sort step leaves it, and that topic's partition list is a permutation
of the original one, ordered ascending by partition id; it is what `Assign`
leaves in the caller's topic list. -/
theorem sort_step_normalises (members : List Member) (topicMetadatas : List TopicMetadata) :
    (∀ t ∈ topicMetadatas,
      (∃ pa, assignTopic members.length t = .ok (sortTopic t, pa)) ∧
      (sortTopic t).PartitionMetadatas.Perm t.PartitionMetadatas ∧
      ((sortTopic t).PartitionMetadatas.map (fun pm => pm.PartitionId)).Sorted (· ≤ ·)) ∧
    ∃ r, Assign members topicMetadatas = .ok r ∧
      r.topicMetadatas = topicMetadatas.map sortTopic := by
  refine ⟨?_, _, Assign_eq members topicMetadatas, rfl⟩
  intro t _
  obtain ⟨pa, hpa, -⟩ := assignTopic_ok members.length t
  refine ⟨⟨pa, hpa⟩, sortByPartitionID_perm _, ?_⟩
  simp only [List.Sorted, List.pairwise_map]
  refine List.Pairwise.imp ?_ (sortByPartitionID_sorted t.PartitionMetadatas)
  intro a b h
  simp only [ByPartitionID.Ordered, ByPartitionID.Less] at h
  omega

/-- C13: as the code stands, `Assign` returns the empty `GroupAssignment`
(zero entries) for every member list and every topic list. -/
theorem Assign_returns_empty (members : List Member) (topicMetadatas : List TopicMetadata) :
    ∃ r, Assign members topicMetadatas = .ok r ∧ r.groupAssignment = [] ∧
      r.groupAssignment.length = 0 :=
  ⟨_, Assign_eq members topicMetadatas, rfl, rfl⟩

/-! ## Absence of run-time panics -/

/-- On a slice of at least `n` entries neither check of the loop of
`assignPartitions` ever fires: the divisor is `i + 1 ≥ 1` and the index is
below `n`. -/
theorem assignLoopChecked_eq (n : Nat) (p : Int) (rst : List Int) (hn : n ≤ rst.length) :
    assignLoopChecked n p rst = .ok (assignLoop n p rst) := by
  induction n generalizing p rst with
  | zero => rfl
  | succ i ih =>
    have hdiv : ¬ ((i : Int) + 1 = 0) := by omega
    have hidx : i < rst.length := by omega
    simp only [assignLoopChecked, assignLoop, hdiv, hidx, if_true, if_false]
    exact ih _ _ (by simp only [List.length_set]; omega)

/-- The function `assignPartitions` never panics, for any two arguments. -/
theorem assignPartitionsChecked_eq (M : Nat) (P : Int) :
    assignPartitionsChecked M P = .ok (assignPartitions M P) :=
  assignLoopChecked_eq M P _ (by simp)

/-- C14: `assignPartitions` and `Assign` never fault, for every member list
(the empty one included) and every topic list. The divisor `i + 1` is never
zero and the write `rst[i]` is in range; the body of the topic loop ends
without a panic for every topic; and when the turn of member `i` comes, every
value `idx` takes in that member's inner loop is below the topic's partition
count, which is the length of both slices indexed by `idx`. -/
theorem Assign_never_faults (members : List Member) (topicMetadatas : List TopicMetadata) :
    (∀ P : Int,
      assignPartitionsChecked members.length P = .ok (assignPartitions members.length P)) ∧
    (∀ e, Assign members topicMetadatas ≠ .error e) ∧
    (∀ t ∈ topicMetadatas,
      (∀ e, assignTopic members.length t ≠ .error e) ∧
      ∀ i, i < members.length →
        ∃ st c,
          memberLoop (sortTopic t)
            (assignPartitions members.length ((sortTopic t).PartitionMetadatas.length : Int)) i 0
            { idx := 0
              partitionAssignments :=
                List.replicate (sortTopic t).PartitionMetadatas.length none } = .ok st ∧
          (assignPartitions members.length
            ((sortTopic t).PartitionMetadatas.length : Int))[i]? = some c ∧
          ∀ j, j < c.toNat →
            ∃ stj, fillLoop (sortTopic t) j st = .ok stj ∧ stj.idx = st.idx + j ∧
              stj.idx < t.PartitionMetadatas.length ∧
              stj.idx < (sortTopic t).PartitionMetadatas.length ∧
              stj.idx < stj.partitionAssignments.length) := by
  refine ⟨fun P => assignPartitionsChecked_eq _ P, ?_, ?_⟩
  · intro e h
    simp [Assign_eq] at h
  · intro t _
    constructor
    · intro e h
      obtain ⟨pa, hpa, -⟩ := assignTopic_ok members.length t
      simp [hpa] at h
    · intro i hi
      have hlenS : (sortTopic t).PartitionMetadatas.length = t.PartitionMetadatas.length :=
        sortByPartitionID_length _
      obtain ⟨st0, hst0, hn0, -, -, hl0, -⟩ := memberLoop_prefix members.length t i (by omega)
      obtain ⟨st1, -, hn1, -, hle1, -, -⟩ :=
        memberLoop_prefix members.length t (i + 1) (by omega)
      have hi2 : i < (assignPartitions members.length
          ((sortTopic t).PartitionMetadatas.length : Int)).length := by
        rw [assignPartitions_length]
        exact hi
      have htake := take_succ_iterations
        (assignPartitions members.length ((sortTopic t).PartitionMetadatas.length : Int)) i hi2
      refine ⟨st0, _, hst0, List.getElem?_eq_getElem hi2, ?_⟩
      intro j hj
      obtain ⟨stj, hstj, hidxj, hlenj, -⟩ := fillLoop_run (sortTopic t) j st0
        (by omega) (by omega)
      exact ⟨stj, hstj, hidxj, by omega, by omega, by omega⟩

/-! ## One partition more -/

/-- Quotient and remainder of `P + 1`: the remainder grows by one, or wraps to
zero with the quotient growing by one. -/
theorem succ_div_mod (P M : Int) (hM : 0 < M) :
    (P % M + 1 < M ∧ (P + 1) / M = P / M ∧ (P + 1) % M = P % M + 1) ∨
    (P % M + 1 = M ∧ (P + 1) / M = P / M + 1 ∧ (P + 1) % M = 0) := by
  have h := Int.ediv_add_emod P M
  have h0 : 0 ≤ P % M := Int.emod_nonneg _ (by omega)
  have h1 : P % M < M := Int.emod_lt_of_pos _ hM
  rcases Int.lt_or_le (P % M + 1) M with hlt | hle
  · left
    refine ⟨hlt, ?_⟩
    exact (Int.ediv_emod_unique hM).2 ⟨by omega, by omega, hlt⟩
  · right
    have he : P % M + 1 = M := by omega
    refine ⟨he, ?_⟩
    have hmul : M * (P / M + 1) = M * (P / M) + M := by ring
    exact (Int.ediv_emod_unique hM).2 ⟨by omega, le_refl 0, hM⟩

/-- With one partition more, the member at index `P mod M` gets one partition
more and every other member keeps its count. -/
theorem counts_succ (M : Nat) (P : Int) (hP : 0 ≤ P) (i : Nat) (hi : i < M) :
    ∃ a, (assignPartitions M P)[i]? = some a ∧
      (assignPartitions M (P + 1))[i]?
        = some (a + (if (i : Int) = P % (M : Int) then 1 else 0)) := by
  have hM : (0 : Int) < (M : Int) := by omega
  have h0 : 0 ≤ P % (M : Int) := Int.emod_nonneg _ (by omega)
  refine ⟨_, assignPartitions_getElem? M P hP i hi, ?_⟩
  rw [assignPartitions_getElem? M (P + 1) (by omega) i hi]
  congr 1
  rcases succ_div_mod P M hM with ⟨h1, h2, h3⟩ | ⟨h1, h2, h3⟩
  · rw [h2, h3]
    split_ifs <;> omega
  · rw [h2, h3]
    have hi2 : (i : Int) < (M : Int) := by exact_mod_cast hi
    split_ifs <;> omega

/-- C15: for `M ≥ 1`, `P ≥ 0` and every index `i < M`, entry `i` of
`assignPartitions M (P + 1)` is at least entry `i` of `assignPartitions M P`:
it is that entry or one more, and there is exactly one index at which it is
one more. -/
theorem assignPartitions_mono (M : Nat) (P : Int) (hM : 1 ≤ M) (hP : 0 ≤ P) :
    (∀ i, i < M →
      ∃ a b, (assignPartitions M P)[i]? = some a ∧ (assignPartitions M (P + 1))[i]? = some b ∧
        a ≤ b ∧ (b = a ∨ b = a + 1)) ∧
    ∃! j, j < M ∧
      ∃ a, (assignPartitions M P)[j]? = some a ∧
        (assignPartitions M (P + 1))[j]? = some (a + 1) := by
  have hMpos : (0 : Int) < (M : Int) := by omega
  have h0 : 0 ≤ P % (M : Int) := Int.emod_nonneg _ (by omega)
  have h1 : P % (M : Int) < (M : Int) := Int.emod_lt_of_pos _ hMpos
  constructor
  · intro i hi
    obtain ⟨a, ha, hb⟩ := counts_succ M P hP i hi
    refine ⟨a, _, ha, hb, ?_, ?_⟩ <;> split_ifs <;> omega
  · refine ⟨(P % (M : Int)).toNat, ⟨by omega, ?_⟩, ?_⟩
    · obtain ⟨a, ha, hb⟩ := counts_succ M P hP (P % (M : Int)).toNat (by omega)
      refine ⟨a, ha, ?_⟩
      rw [hb, if_pos (by omega)]
    · rintro j ⟨hj, a, ha, hb⟩
      obtain ⟨a2, ha2, hb2⟩ := counts_succ M P hP j hj
      rw [ha] at ha2
      rw [hb] at hb2
      have e1 : a = a2 := Option.some.inj ha2
      have e2 := Option.some.inj hb2
      subst e1
      by_cases hc : (j : Int) = P % (M : Int)
      · omega
      · rw [if_neg hc] at e2
        omega

/-- C15 at three members, going from five partitions to six. -/
theorem assignPartitions_mono_witness :
    1 ≤ 3 ∧ (0 : Int) ≤ 5 ∧
    ((∀ i, i < 3 →
      ∃ a b, (assignPartitions 3 5)[i]? = some a ∧ (assignPartitions 3 (5 + 1))[i]? = some b ∧
        a ≤ b ∧ (b = a ∨ b = a + 1)) ∧
    ∃! j, j < 3 ∧
      ∃ a, (assignPartitions 3 5)[j]? = some a ∧
        (assignPartitions 3 (5 + 1))[j]? = some (a + 1)) :=
  ⟨by decide, by decide, assignPartitions_mono 3 5 (by decide) (by decide)⟩

end Healer
